import Mathlib

/-!
Verification of the two algorithmic cores of the repository
(`src/bktree/bktree.cc` and `src/cv/find_corners.c`) against its
natural-language specification.

The C++ functions `edit_distance` and `edit_distance_bound` allocate
`int row[n + 1]` and initialize only the entries `row[1] .. row[n]`;
`row[0]` is first written inside the `y`-loop.  When both input strings
are empty (`m = 0`, `n = 0`) the function returns `row[0]`, which was
never written: the returned value is the indeterminate content of an
uninitialized stack slot.  The embedding makes that explicit: both
functions take a parameter `g : Int`, the value of the uninitialized
cell, and return `g` exactly on the both-empty corner.  Each function
gets its own parameter because the two C functions have separate
frames; within one function the model treats the value as fixed.

All machine `int` arithmetic is modelled on `Int` (no overflow occurs
for any input that fits in memory, and none of the claims is about
overflow of the distance arithmetic).
-/

/-- Reference recursion for the Levenshtein distance, with the exact
three-way minimum used by the dynamic program in `edit_distance`
(deletion and insertion cost 1, substitution cost 0 or 1). -/
def levd : List Char → List Char → Nat
  | [], t => t.length
  | s, [] => s.length
  | a :: s, b :: t =>
      min (levd s t + (if a = b then 0 else 1))
          (min (levd (a :: s) t) (levd s (b :: t)) + 1)
termination_by s t => s.length + t.length

@[simp] theorem levd_nil_left (t : List Char) : levd [] t = t.length := by
  cases t <;> simp [levd]

@[simp] theorem levd_nil_right (s : List Char) : levd s [] = s.length := by
  cases s <;> simp [levd]

theorem levd_cons_cons (a b : Char) (s t : List Char) :
    levd (a :: s) (b :: t) =
      min (levd s t + (if a = b then 0 else 1))
          (min (levd (a :: s) t) (levd s (b :: t)) + 1) := by
  rw [levd]

@[simp] theorem levd_self (s : List Char) : levd s s = 0 := by
  induction s with
  | nil => simp
  | cons a s ih =>
      rw [levd_cons_cons]
      simp [ih]

theorem eq_of_levd_eq_zero : ∀ {s t : List Char}, levd s t = 0 → s = t
  | [], t, h => by simpa using (List.length_eq_zero.mp (by simpa using h)).symm
  | s, [], h => by simpa using List.length_eq_zero.mp (by simpa using h)
  | a :: s, b :: t, h => by
      rw [levd_cons_cons] at h
      rcases Nat.min_eq_zero_iff.mp h with h1 | h2
      · rcases Nat.add_eq_zero.mp h1 with ⟨hd, hc⟩
        have hab : a = b := by by_contra hne; simp [hne] at hc
        have := eq_of_levd_eq_zero hd
        simp [hab, this]
      · exact absurd h2 (Nat.succ_ne_zero _)

theorem levd_eq_zero_iff {s t : List Char} : levd s t = 0 ↔ s = t :=
  ⟨eq_of_levd_eq_zero, fun h => h ▸ levd_self s⟩

theorem levd_comm : ∀ (s t : List Char), levd s t = levd t s
  | [], t => by simp
  | s, [] => by simp
  | a :: s, b :: t => by
      rw [levd_cons_cons, levd_cons_cons]
      have h1 := levd_comm s t
      have h2 := levd_comm (a :: s) t
      have h3 := levd_comm s (b :: t)
      have hab : (if a = b then 0 else 1) = (if b = a then 0 else 1) := by
        by_cases h : a = b <;> simp [h, Ne.symm, eq_comm]
      rw [h1, h2, h3, hab, Nat.min_comm (levd t (a :: s)) (levd (b :: t) s)]
termination_by s t => s.length + t.length

/-! ### Edit scripts

`Edit1 s t` is a single insertion, deletion, or substitution anywhere in
the list; `Reach s t n` is a script of at most its cost `n`.  These are
used to prove the triangle inequality for `levd`: `levd` is both
realized by some script and a lower bound on every script. -/

inductive Edit1 : List Char → List Char → Prop where
  | ins (x : Char) (l : List Char) : Edit1 l (x :: l)
  | del (x : Char) (l : List Char) : Edit1 (x :: l) l
  | sub (x y : Char) (l : List Char) : Edit1 (x :: l) (y :: l)
  | cons (x : Char) {s t : List Char} : Edit1 s t → Edit1 (x :: s) (x :: t)

inductive Reach : List Char → List Char → Nat → Prop where
  | refl (s : List Char) : Reach s s 0
  | step {s s' t : List Char} {n : Nat} :
      Edit1 s s' → Reach s' t n → Reach s t (n + 1)

theorem Reach.cons_lift (x : Char) {s t : List Char} {n : Nat}
    (h : Reach s t n) : Reach (x :: s) (x :: t) n := by
  induction h with
  | refl s => exact Reach.refl _
  | step e _ ih => exact Reach.step (Edit1.cons x e) ih

theorem Reach.trans {a b c : List Char} {m n : Nat}
    (h1 : Reach a b m) (h2 : Reach b c n) : Reach a c (m + n) := by
  induction h1 with
  | refl s => simpa using h2
  | step e _ ih =>
      have h := Reach.step e (ih h2)
      rwa [Nat.add_right_comm] at h

theorem levd_cons_le_left (x : Char) (l t : List Char) :
    levd (x :: l) t ≤ levd l t + 1 := by
  cases t with
  | nil => simp
  | cons b t' =>
      rw [levd_cons_cons]
      exact le_trans (le_trans (min_le_right _ _)
        (Nat.add_le_add_right (min_le_right _ _) 1)) le_rfl

theorem levd_cons_le_right (b : Char) (s t : List Char) :
    levd s (b :: t) ≤ levd s t + 1 := by
  cases s with
  | nil => simp
  | cons a s' =>
      rw [levd_cons_cons]
      exact le_trans (min_le_right _ _) (Nat.add_le_add_right (min_le_left _ _) 1)

theorem levd_le_cons_left (x : Char) (l : List Char) :
    ∀ t : List Char, levd l t ≤ levd (x :: l) t + 1 := by
  intro t
  induction t with
  | nil => simp only [levd_nil_right, List.length_cons]; omega
  | cons b t' ih =>
      rw [levd_cons_cons (a := x)]
      simp only [← min_add_add_right]
      refine le_min ?_ (le_min ?_ ?_)
      · exact le_trans (levd_cons_le_right b l t')
          (by have : (0:Nat) ≤ if x = b then 0 else 1 := Nat.zero_le _; omega)
      · exact le_trans (levd_cons_le_right b l t') (by omega)
      · omega

theorem levd_sub_le (x y : Char) (l : List Char) :
    ∀ t : List Char, levd (x :: l) t ≤ levd (y :: l) t + 1 := by
  intro t
  induction t with
  | nil => simp
  | cons b t' ih =>
      rw [levd_cons_cons (a := y)]
      simp only [← min_add_add_right]
      refine le_min ?_ (le_min ?_ ?_)
      · calc levd (x :: l) (b :: t')
            ≤ levd l t' + (if x = b then 0 else 1) := by
              rw [levd_cons_cons]; exact min_le_left _ _
          _ ≤ levd l t' + (if y = b then 0 else 1) + 1 := by
              have h1 : (if x = b then 0 else 1) ≤ 1 := by split <;> omega
              have h2 : (0:Nat) ≤ if y = b then 0 else 1 := Nat.zero_le _
              omega
      · calc levd (x :: l) (b :: t')
            ≤ levd (x :: l) t' + 1 := levd_cons_le_right b (x :: l) t'
          _ ≤ (levd (y :: l) t' + 1) + 1 := Nat.add_le_add_right ih 1
      · calc levd (x :: l) (b :: t')
            ≤ levd l (b :: t') + 1 := levd_cons_le_left x l (b :: t')
          _ ≤ levd l (b :: t') + 1 + 1 := by omega

theorem levd_edit_cons (x : Char) {s s' : List Char}
    (ihe : ∀ u : List Char, levd s u ≤ levd s' u + 1) :
    ∀ t : List Char, levd (x :: s) t ≤ levd (x :: s') t + 1 := by
  intro t
  induction t with
  | nil =>
      have h := ihe []
      simp only [levd_nil_right, List.length_cons] at h ⊢
      omega
  | cons b t' ih =>
      rw [levd_cons_cons (a := x) (s := s')]
      simp only [← min_add_add_right]
      refine le_min ?_ (le_min ?_ ?_)
      · calc levd (x :: s) (b :: t')
            ≤ levd s t' + (if x = b then 0 else 1) := by
              rw [levd_cons_cons]; exact min_le_left _ _
          _ ≤ (levd s' t' + 1) + (if x = b then 0 else 1) :=
              Nat.add_le_add_right (ihe t') _
          _ = levd s' t' + (if x = b then 0 else 1) + 1 := by omega
      · calc levd (x :: s) (b :: t')
            ≤ levd (x :: s) t' + 1 := levd_cons_le_right b (x :: s) t'
          _ ≤ (levd (x :: s') t' + 1) + 1 := Nat.add_le_add_right ih 1
      · calc levd (x :: s) (b :: t')
            ≤ min (levd s t' + (if x = b then 0 else 1))
                (min (levd (x :: s) t') (levd s (b :: t')) + 1) := by
              rw [levd_cons_cons]
          _ ≤ min (levd (x :: s) t') (levd s (b :: t')) + 1 := min_le_right _ _
          _ ≤ levd s (b :: t') + 1 := Nat.add_le_add_right (min_le_right _ _) 1
          _ ≤ (levd s' (b :: t') + 1) + 1 := Nat.add_le_add_right (ihe (b :: t')) 1

theorem edit1_levd_le {s s' : List Char} (e : Edit1 s s') :
    ∀ t : List Char, levd s t ≤ levd s' t + 1 := by
  induction e with
  | ins x l => exact levd_le_cons_left x l
  | del x l => exact fun t => levd_cons_le_left x l t
  | sub x y l => exact levd_sub_le x y l
  | cons x e ih => exact levd_edit_cons x ih

theorem levd_le_of_reach {s t : List Char} {n : Nat} (h : Reach s t n) :
    levd s t ≤ n := by
  induction h with
  | refl s => simp
  | step e _ ih =>
      exact le_trans (edit1_levd_le e _) (Nat.add_le_add_right ih 1)

theorem reach_levd : ∀ s t : List Char, Reach s t (levd s t)
  | [], [] => by simpa using Reach.refl ([] : List Char)
  | [], b :: t => by
      have ih := reach_levd [] t
      have h1 : Reach [b] (b :: t) t.length := Reach.cons_lift b (by simpa using ih)
      have h2 := Reach.step (Edit1.ins b []) h1
      simpa using h2
  | a :: s, [] => by
      have ih := reach_levd s []
      have h1 : Reach s [] s.length := by simpa using ih
      have h2 := Reach.step (Edit1.del a s) h1
      simpa using h2
  | a :: s, b :: t => by
      have hd := reach_levd s t
      have hy1 := reach_levd (a :: s) t
      have hy2 := reach_levd s (b :: t)
      have c1 : Reach (a :: s) (b :: t) (levd s t + (if a = b then 0 else 1)) := by
        by_cases hab : a = b
        · subst hab; simpa using Reach.cons_lift a hd
        · simpa [hab] using Reach.step (Edit1.sub a b s) (Reach.cons_lift b hd)
      have c2 : Reach (a :: s) (b :: t) (levd (a :: s) t + 1) :=
        Reach.step (Edit1.ins b (a :: s)) (Reach.cons_lift b hy1)
      have c3 : Reach (a :: s) (b :: t) (levd s (b :: t) + 1) :=
        Reach.step (Edit1.del a s) hy2
      rw [levd_cons_cons]
      rcases Nat.le_total (levd s t + (if a = b then 0 else 1))
          (min (levd (a :: s) t) (levd s (b :: t)) + 1) with h | h
      · rw [Nat.min_eq_left h]; exact c1
      · rw [Nat.min_eq_right h]
        rcases Nat.le_total (levd (a :: s) t) (levd s (b :: t)) with h2 | h2
        · rw [Nat.min_eq_left h2]; exact c2
        · rw [Nat.min_eq_right h2]; exact c3
termination_by s t => s.length + t.length

theorem levd_triangle (a b c : List Char) :
    levd a c ≤ levd a b + levd b c :=
  levd_le_of_reach ((reach_levd a b).trans (reach_levd b c))

theorem edit1_append_right (x : Char) :
    ∀ {u v : List Char}, Edit1 u v → Edit1 (u ++ [x]) (v ++ [x]) := by
  intro u v e
  induction e with
  | ins y l => exact Edit1.ins y (l ++ [x])
  | del y l => exact Edit1.del y (l ++ [x])
  | sub y z l => exact Edit1.sub y z (l ++ [x])
  | cons y _ ih => exact Edit1.cons y ih

theorem edit1_ins_last (x : Char) : ∀ u : List Char, Edit1 u (u ++ [x]) := by
  intro u
  induction u with
  | nil => exact Edit1.ins x []
  | cons a u ih => exact Edit1.cons a ih

theorem edit1_del_last (x : Char) : ∀ u : List Char, Edit1 (u ++ [x]) u := by
  intro u
  induction u with
  | nil => exact Edit1.del x []
  | cons a u ih => exact Edit1.cons a ih

theorem edit1_sub_last (x y : Char) : ∀ u : List Char, Edit1 (u ++ [x]) (u ++ [y]) := by
  intro u
  induction u with
  | nil => exact Edit1.sub x y []
  | cons a u ih => exact Edit1.cons a ih

theorem edit1_reverse {s t : List Char} (e : Edit1 s t) :
    Edit1 s.reverse t.reverse := by
  induction e with
  | ins x l => rw [List.reverse_cons]; exact edit1_ins_last x l.reverse
  | del x l => rw [List.reverse_cons]; exact edit1_del_last x l.reverse
  | sub x y l => rw [List.reverse_cons, List.reverse_cons]; exact edit1_sub_last x y l.reverse
  | cons x e ih => rw [List.reverse_cons, List.reverse_cons]; exact edit1_append_right x ih

theorem reach_reverse {s t : List Char} {n : Nat} (h : Reach s t n) :
    Reach s.reverse t.reverse n := by
  induction h with
  | refl s => exact Reach.refl _
  | step e _ ih => exact Reach.step (edit1_reverse e) ih

/-- The Levenshtein distance is invariant under reversing both
arguments (an edit script reverses into an edit script of the same
cost). -/
theorem levd_reverse (s t : List Char) : levd s.reverse t.reverse = levd s t := by
  refine le_antisymm ?_ ?_
  · exact levd_le_of_reach (reach_reverse (reach_levd s t))
  · have h := levd_le_of_reach (reach_reverse (reach_levd s.reverse t.reverse))
    rwa [List.reverse_reverse, List.reverse_reverse] at h

/-! ### The two-row dynamic program of `edit_distance`
(`src/bktree/bktree.cc`, lines 24-42)

The row is a `List Int` of length `n + 1` (`n = s2.length`).  The C
code initializes `row[1] .. row[n]` with `1 .. n` and leaves `row[0]`
uninitialized (parameter `g`).  Each iteration of the `y`-loop sets
`row[0] = y` and updates `row[1] .. row[n]` left to right, with
`previous` holding the diagonal value `old row[x-1]`; `previous`
starts at `y - 1`, so the uninitialized head is never read there.
`edGo` is the inner `x`-loop: it receives the diagonal value, the
value just written to the left, and the zip of the remaining `s2`
characters with the remaining entries of the previous row. -/

def edGo (c1 : Char) : Int → Int → List (Char × Int) → List Int
  | _, _, [] => []
  | diag, left, (c2, p) :: rest =>
      let v := min (diag + (if c1 = c2 then 0 else 1)) (min left p + 1)
      v :: edGo c1 p v rest

/-- One iteration of the `y`-loop of `edit_distance`. -/
def edNextRow (c1 : Char) (y : Int) (t : List Char) (row : List Int) : List Int :=
  y :: edGo c1 (y - 1) y (t.zip row.tail)

/-- The row as first allocated: `row[i] = i` for `1 ≤ i ≤ n`, and the
uninitialized `row[0]` modelled by `g`. -/
def edInitRow (g : Int) (n : Nat) : List Int :=
  g :: (List.range n).map (fun i => ((i + 1 : Nat) : Int))

/-- The `y`-loop of `edit_distance`. -/
def edLoop (t : List Char) : List Char → Int → List Int → List Int
  | [], _, row => row
  | c :: s, y, row => edLoop t s (y + 1) (edNextRow c y t row)

/-- `edit_distance(s1, s2)` from `src/bktree/bktree.cc`: run the DP
rows over `s1` and return `row[n]`.  `g` is the value of the
uninitialized `row[0]`, which is returned exactly when both strings
are empty. -/
def edit_distance (g : Int) (s t : List Char) : Int :=
  (edLoop t s 1 (edInitRow g t.length)).getLastD 0

/-- Intended contents of the part `row[1..]` of a DP row: `u` is the
reversed list of already-consumed `s1` characters, `acc` the reversed
list of already-consumed `s2` characters. -/
def rowSpecT (u acc : List Char) : List Char → List Int
  | [] => []
  | c :: t => (levd u (c :: acc) : Int) :: rowSpecT u (c :: acc) t

/-- Intended contents of a full DP row. -/
def rowSpec (u acc t : List Char) : List Int :=
  (levd u acc : Int) :: rowSpecT u acc t

theorem edGo_spec (c1 : Char) (u : List Char) :
    ∀ (t acc : List Char),
      edGo c1 (levd u acc : Int) (levd (c1 :: u) acc : Int)
        (t.zip (rowSpecT u acc t)) = rowSpecT (c1 :: u) acc t := by
  intro t
  induction t with
  | nil => intro acc; rfl
  | cons c2 t' ih =>
      intro acc
      have hv : ((levd (c1 :: u) (c2 :: acc) : Nat) : Int) =
          min ((levd u acc : Int) + (if c1 = c2 then 0 else 1))
              (min (levd (c1 :: u) acc : Int) (levd u (c2 :: acc) : Int) + 1) := by
        rw [levd_cons_cons]
        push_cast [apply_ite (fun n : Nat => (n : Int))]
        rfl
      simp only [rowSpecT, List.zip_cons_cons, edGo]
      rw [← hv]
      exact congrArg _ (ih (c2 :: acc))

theorem edNextRow_spec (c1 : Char) (u t : List Char) (row : List Int) (y : Int)
    (h : row.tail = rowSpecT u [] t) (hy : y = (u.length : Int) + 1) :
    edNextRow c1 y t row = rowSpec (c1 :: u) [] t := by
  have h1 : y - 1 = (levd u [] : Int) := by simp [hy]
  have h2 : y = (levd (c1 :: u) [] : Int) := by simp [hy]
  rw [edNextRow, h, h1, h2, edGo_spec c1 u t []]
  rfl

theorem edLoop_spec (t : List Char) :
    ∀ (s u : List Char) (row : List Int),
      row.tail = rowSpecT u [] t → s ≠ [] →
      edLoop t s ((u.length : Int) + 1) row = rowSpec (List.reverseAux s u) [] t := by
  intro s
  induction s with
  | nil => intro u row _ hs; exact absurd rfl hs
  | cons c s' ih =>
      intro u row h _
      have hnext : edNextRow c ((u.length : Int) + 1) t row = rowSpec (c :: u) [] t :=
        edNextRow_spec c u t row _ h rfl
      by_cases hs' : s' = []
      · subst hs'
        simp only [edLoop, List.reverseAux]
        exact hnext
      · have : edLoop t (c :: s') ((u.length : Int) + 1) row
            = edLoop t s' (((c :: u).length : Int) + 1) (rowSpec (c :: u) [] t) := by
          rw [edLoop, hnext]
          norm_num
        rw [this, ih (c :: u) (rowSpec (c :: u) [] t) rfl hs']
        rfl

theorem rowSpecT_nil_left :
    ∀ (t acc : List Char),
      rowSpecT [] acc t
        = (List.range t.length).map (fun i => ((acc.length + i + 1 : Nat) : Int)) := by
  intro t
  induction t with
  | nil => intro acc; rfl
  | cons c t' ih =>
      intro acc
      rw [rowSpecT, ih (c :: acc)]
      simp only [List.length_cons]
      rw [List.range_succ_eq_map, List.map_cons, List.map_map]
      refine congrArg₂ _ (by simp) ?_
      apply List.map_congr_left
      intro i _
      simp only [Function.comp_apply, List.length_cons]
      congr 1
      omega

theorem getLastD_irrel {l : List Int} (d d' : Int) (h : l ≠ []) :
    l.getLastD d = l.getLastD d' := by
  cases l with
  | nil => exact absurd rfl h
  | cons a l => rw [List.getLastD_cons, List.getLastD_cons]

theorem edInitRow_tail (g : Int) (t : List Char) :
    (edInitRow g t.length).tail = rowSpecT [] [] t := by
  rw [edInitRow, List.tail_cons, rowSpecT_nil_left]
  apply List.map_congr_left
  intro i _
  congr 1
  simp

theorem rowSpec_getLastD :
    ∀ (t u acc : List Char),
      (rowSpec u acc t).getLastD 0 = (levd u (t.reverse ++ acc) : Int) := by
  intro t
  induction t with
  | nil => intro u acc; rfl
  | cons c t' ih =>
      intro u acc
      have h : rowSpec u acc (c :: t') = (levd u acc : Int) :: rowSpec u (c :: acc) t' := rfl
      rw [h]
      have h2 : (rowSpec u (c :: acc) t') ≠ [] := by
        rw [rowSpec]; exact List.cons_ne_nil _ _
      rw [List.getLastD_cons, getLastD_irrel _ 0 h2, ih u (c :: acc)]
      congr 1
      rw [List.reverse_cons, List.append_assoc]
      rfl

/-- For `s1` empty the C code skips the `y`-loop and returns `row[n]`
directly from the initial row: `n` if `n ≥ 1`, the uninitialized
`row[0]` if `n = 0`. -/
theorem edit_distance_nil_left (g : Int) (t : List Char) :
    edit_distance g [] t = if t.length = 0 then g else (t.length : Int) := by
  rw [edit_distance, edLoop]
  cases t with
  | nil => rfl
  | cons c t' =>
      simp only [List.length_cons, edInitRow]
      rw [List.getLastD_cons, List.range_succ, List.map_append]
      simp

/-- `edit_distance("","")` returns the uninitialized `row[0]`. -/
theorem edit_distance_nil_nil (g : Int) : edit_distance g [] [] = g := rfl

/-- Main correspondence: away from the both-empty corner the DP of
`edit_distance` computes the Levenshtein distance (`levd` applied to
the reversed strings; the DP consumes prefixes from the left, which
are the suffix-form arguments of `levd` reversed). -/
theorem edit_distance_eq (g : Int) (s t : List Char) (h : ¬(s = [] ∧ t = [])) :
    edit_distance g s t = (levd s.reverse t.reverse : Int) := by
  cases s with
  | nil =>
      have ht : t ≠ [] := by
        intro hteq; exact h ⟨rfl, hteq⟩
      rw [edit_distance_nil_left]
      have : t.length ≠ 0 := by simpa [List.length_eq_zero] using ht
      simp [this]
  | cons c s' =>
      rw [edit_distance]
      have h0 : (1 : Int) = (([] : List Char).length : Int) + 1 := by simp
      rw [h0, edLoop_spec t (c :: s') [] (edInitRow g t.length)
        (edInitRow_tail g t) (List.cons_ne_nil c s'), rowSpec_getLastD]
      rw [List.append_nil, List.reverseAux_eq, List.append_nil]

theorem edit_distance_nonneg (g : Int) (s t : List Char) (h : ¬(s = [] ∧ t = [])) :
    0 ≤ edit_distance g s t := by
  rw [edit_distance_eq g s t h]; exact Int.natCast_nonneg _

theorem edit_distance_indep (g g' : Int) (s t : List Char) (h : ¬(s = [] ∧ t = [])) :
    edit_distance g s t = edit_distance g' s t := by
  rw [edit_distance_eq g s t h, edit_distance_eq g' s t h]

theorem edit_distance_comm (g : Int) (s t : List Char) (h : ¬(s = [] ∧ t = [])) :
    edit_distance g s t = edit_distance g t s := by
  have h' : ¬(t = [] ∧ s = []) := fun hc => h ⟨hc.2, hc.1⟩
  rw [edit_distance_eq g s t h, edit_distance_eq g t s h', levd_comm]

theorem edit_distance_eq_zero_iff (g : Int) (s t : List Char) (h : ¬(s = [] ∧ t = [])) :
    edit_distance g s t = 0 ↔ s = t := by
  rw [edit_distance_eq g s t h]
  rw [show ((levd s.reverse t.reverse : Nat) : Int) = 0 ↔ levd s.reverse t.reverse = 0 from
    Int.natCast_eq_zero]
  rw [levd_eq_zero_iff]
  exact List.reverse_inj

theorem edit_distance_triangle (g : Int) (a b c : List Char)
    (hac : ¬(a = [] ∧ c = [])) (hab : ¬(a = [] ∧ b = [])) (hbc : ¬(b = [] ∧ c = [])) :
    edit_distance g a c ≤ edit_distance g a b + edit_distance g b c := by
  rw [edit_distance_eq g a c hac, edit_distance_eq g a b hab, edit_distance_eq g b c hbc]
  have h := levd_triangle a.reverse b.reverse c.reverse
  exact_mod_cast h

/-- Away from the both-empty corner `edit_distance` computes the
Levenshtein distance of its arguments themselves. -/
theorem edit_distance_eq_levd (g : Int) (s t : List Char) (h : ¬(s = [] ∧ t = [])) :
    edit_distance g s t = (levd s t : Int) := by
  rw [edit_distance_eq g s t h, levd_reverse]

/-! ### `edit_distance_bound` (`src/bktree/bktree.cc`, lines 45-66)

Identical rows; additionally `best_this_row` starts at `row[0] = y`
and is folded with every updated entry, i.e. it is the minimum of the
freshly computed row; when it exceeds `upper_bound` the function
returns `upper_bound + 1` immediately. -/

def rowMin : List Int → Int
  | [] => 0
  | h :: l => l.foldl min h

def edbLoop (t : List Char) (ub : Int) : List Char → Int → List Int → Int
  | [], _, row => row.getLastD 0
  | c :: s, y, row =>
      if ub < rowMin (edNextRow c y t row) then ub + 1
      else edbLoop t ub s (y + 1) (edNextRow c y t row)

/-- `edit_distance_bound(s1, s2, upper_bound)` from
`src/bktree/bktree.cc`; `g` models the uninitialized `row[0]`. -/
def edit_distance_bound (g : Int) (s t : List Char) (ub : Int) : Int :=
  edbLoop t ub s 1 (edInitRow g t.length)

theorem foldl_min_le (l : List Int) :
    ∀ a : Int, l.foldl min a ≤ a ∧ ∀ v ∈ l, l.foldl min a ≤ v := by
  induction l with
  | nil => intro a; exact ⟨le_rfl, by simp⟩
  | cons b l ih =>
      intro a
      have h := ih (min a b)
      refine ⟨le_trans h.1 (min_le_left a b), ?_⟩
      intro v hv
      rcases List.mem_cons.mp hv with rfl | hv'
      · exact le_trans h.1 (min_le_right a v)
      · exact h.2 v hv'

theorem rowMin_le {r : List Int} : ∀ v ∈ r, rowMin r ≤ v := by
  cases r with
  | nil => simp
  | cons h l =>
      intro v hv
      rcases List.mem_cons.mp hv with rfl | hv'
      · exact (foldl_min_le l v).1
      · exact (foldl_min_le l h).2 v hv'

theorem edGo_ge (c1 : Char) (M : Int) :
    ∀ (pairs : List (Char × Int)) (diag left : Int),
      M ≤ diag → M ≤ left → (∀ cp ∈ pairs, M ≤ cp.2) →
      ∀ v ∈ edGo c1 diag left pairs, M ≤ v := by
  intro pairs
  induction pairs with
  | nil => intro diag left _ _ _ v hv; simp [edGo] at hv
  | cons cp rest ih =>
      rcases cp with ⟨c2, p⟩
      intro diag left hd hl hp v hv
      have hpM : M ≤ p := hp (c2, p) (List.mem_cons_self _ _)
      have hvM : M ≤ min (diag + (if c1 = c2 then 0 else 1)) (min left p + 1) := by
        refine le_min ?_ ?_
        · have : (0:Int) ≤ if c1 = c2 then 0 else 1 := by split <;> omega
          omega
        · have := le_min hl hpM
          omega
      rw [edGo] at hv
      rcases List.mem_cons.mp hv with rfl | hv'
      · exact hvM
      · exact ih p _ hpM hvM (fun q hq => hp q (List.mem_cons_of_mem _ hq)) v hv'

theorem edNextRow_ge (c1 : Char) (t : List Char) (row : List Int) (M y : Int)
    (h1 : M ≤ y - 1) (h2 : ∀ p ∈ row.tail, M ≤ p) :
    ∀ v ∈ edNextRow c1 y t row, M ≤ v := by
  intro v hv
  rw [edNextRow] at hv
  rcases List.mem_cons.mp hv with rfl | hv'
  · omega
  · refine edGo_ge c1 M (t.zip row.tail) (y - 1) y h1 (by omega) ?_ v hv'
    intro cp hcp
    exact h2 cp.2 (List.of_mem_zip hcp).2

theorem edLoop_ge (t : List Char) :
    ∀ (s : List Char) (y : Int) (row : List Int) (M : Int),
      (∀ v ∈ row, M ≤ v) → M ≤ y - 1 →
      ∀ v ∈ edLoop t s y row, M ≤ v := by
  intro s
  induction s with
  | nil => intro y row M h _ v hv; exact h v hv
  | cons c s' ih =>
      intro y row M h hy v hv
      rw [edLoop] at hv
      have hnext : ∀ w ∈ edNextRow c y t row, M ≤ w :=
        edNextRow_ge c t row M y hy (fun p hp => h p (List.mem_of_mem_tail hp))
      exact ih (y + 1) _ M hnext (by omega) v hv

theorem edLoop_ne_nil (t : List Char) :
    ∀ (s : List Char) (y : Int) (row : List Int), row ≠ [] → edLoop t s y row ≠ [] := by
  intro s
  induction s with
  | nil => intro y row h; exact h
  | cons c s' ih =>
      intro y row _
      rw [edLoop]
      exact ih (y + 1) _ (List.cons_ne_nil _ _)

theorem getLastD_mem : ∀ (l : List Int) (d : Int), l ≠ [] → l.getLastD d ∈ l := by
  intro l
  induction l with
  | nil => intro d h; exact absurd rfl h
  | cons a l ih =>
      intro d _
      rw [List.getLastD_cons]
      cases hl : l with
      | nil => simp
      | cons b l' =>
          have := ih a (by simp [hl])
          rw [hl] at this
          exact List.mem_cons_of_mem _ this

theorem edNextRow_head_mem (c1 : Char) (y : Int) (t : List Char) (row : List Int) :
    y ∈ edNextRow c1 y t row := by
  rw [edNextRow]; exact List.mem_cons_self _ _

theorem edbLoop_eq (t : List Char) (ub : Int) :
    ∀ (s : List Char) (y : Int) (row : List Int),
      (edLoop t s y row).getLastD 0 ≤ ub →
      edbLoop t ub s y row = (edLoop t s y row).getLastD 0 := by
  intro s
  induction s with
  | nil => intro y row _; rfl
  | cons c s' ih =>
      intro y row h
      rw [edLoop] at h ⊢
      rw [edbLoop]
      split
      case isTrue hexit =>
        exfalso
        set r := edNextRow c y t row with hr
        have hM : ∀ v ∈ r, rowMin r ≤ v := rowMin_le
        have hMy : rowMin r ≤ y := hM y (edNextRow_head_mem c y t row)
        have hall : ∀ v ∈ edLoop t s' (y + 1) r, rowMin r ≤ v :=
          edLoop_ge t s' (y + 1) r (rowMin r) hM (by omega)
        have hne : edLoop t s' (y + 1) r ≠ [] :=
          edLoop_ne_nil t s' (y + 1) r (by rw [hr, edNextRow]; exact List.cons_ne_nil _ _)
        have hlast := hall _ (getLastD_mem _ 0 hne)
        omega
      case isFalse =>
        exact ih (y + 1) _ h

theorem edbLoop_gt (t : List Char) (ub : Int) :
    ∀ (s : List Char) (y : Int) (row : List Int),
      ub < (edLoop t s y row).getLastD 0 →
      ub < edbLoop t ub s y row := by
  intro s
  induction s with
  | nil => intro y row h; exact h
  | cons c s' ih =>
      intro y row h
      rw [edLoop] at h
      rw [edbLoop]
      split
      case isTrue => omega
      case isFalse => exact ih (y + 1) _ h

/-- Main contract of `edit_distance_bound`: it agrees with
`edit_distance` whenever the true distance is at most `upper_bound`,
and exceeds `upper_bound` whenever the true distance does. -/
theorem edit_distance_bound_spec (g g' : Int) (s t : List Char) (ub : Int)
    (h : ¬(s = [] ∧ t = [])) :
    (edit_distance g s t ≤ ub →
        edit_distance_bound g' s t ub = edit_distance g s t) ∧
    (ub < edit_distance g s t → ub < edit_distance_bound g' s t ub) := by
  have hind : edit_distance g s t = edit_distance g' s t := edit_distance_indep g g' s t h
  have hdef : edit_distance g' s t = (edLoop t s 1 (edInitRow g' t.length)).getLastD 0 := rfl
  constructor
  · intro hle
    rw [hind] at hle ⊢
    rw [edit_distance_bound, edbLoop_eq t ub s 1 _ (by rw [← hdef]; exact hle), ← hdef]
  · intro hgt
    rw [hind] at hgt
    exact edbLoop_gt t ub s 1 _ (by rw [← hdef]; exact hgt)

/-! ### The BK-tree (`src/bktree/bktree.cc`, lines 75-122)

A node holds a (borrowed) pivot word and a `std::map<int, child>`;
the map is modelled as an association list with strictly increasing
keys, which is how every tree built by `insert` looks.  `insert`
computes `d = edit_distance(pivot, word)`; if the node has no child
with key `d` a fresh leaf is attached (at the sorted position, as
`children[d] = ...` does), otherwise it recurses into that child.
`query` emits the pivot when `d ≤ n` and recurses into exactly the
children whose key lies in `[d - n, d + n]` (the `lower_bound` /
`upper_bound` iteration range of the sorted map).  The visit counter
is benchmarking-only and is not modelled. -/

inductive BkTree where
  | node (pivot : List Char) (children : List (Int × BkTree))

def BkTree.pivot : BkTree → List Char
  | .node v _ => v

def BkTree.children : BkTree → List (Int × BkTree)
  | .node _ cs => cs

mutual
def BkTree.insert (g : Int) : BkTree → List Char → BkTree
  | .node v cs, w => .node v (BkTree.insertC g (edit_distance g v w) w cs)

def BkTree.insertC (g d : Int) (w : List Char) : List (Int × BkTree) → List (Int × BkTree)
  | [] => [(d, .node w [])]
  | (k, c) :: rest =>
      if d < k then (d, .node w []) :: (k, c) :: rest
      else if k = d then (k, BkTree.insert g c w) :: rest
      else (k, c) :: BkTree.insertC g d w rest
end

mutual
def BkTree.query (g : Int) : BkTree → List Char → Int → List (List Char)
  | .node v cs, w, n =>
      (if edit_distance g v w ≤ n then [v] else []) ++
        BkTree.queryC g w n (edit_distance g v w) cs

def BkTree.queryC (g : Int) (w : List Char) (n d : Int) :
    List (Int × BkTree) → List (List Char)
  | [] => []
  | (k, c) :: rest =>
      (if d - n ≤ k ∧ k ≤ d + n then BkTree.query g c w n else []) ++
        BkTree.queryC g w n d rest
end

mutual
def BkTree.pivots : BkTree → List (List Char)
  | .node v cs => v :: BkTree.pivotsC cs

def BkTree.pivotsC : List (Int × BkTree) → List (List Char)
  | [] => []
  | (_, c) :: rest => BkTree.pivots c ++ BkTree.pivotsC rest
end

/-- Building the index as `main` does: the first word becomes the
root, the rest are inserted in order. -/
def BkTree.build (g : Int) (w0 : List Char) (ws : List (List Char)) : BkTree :=
  ws.foldl (BkTree.insert g) (.node w0 [])

theorem BkTree.myInduction (P : BkTree → Prop)
    (h : ∀ v cs, (∀ k c, (k, c) ∈ cs → P c) → P (.node v cs)) : ∀ t, P t := by
  intro t
  match t with
  | .node v cs =>
      refine h v cs ?_
      intro k c hmem
      exact BkTree.myInduction P h c
termination_by t => sizeOf t
decreasing_by
  have h1 := List.sizeOf_lt_of_mem hmem
  simp at h1 ⊢
  omega

theorem BkTree.pivots_node (v : List Char) (cs : List (Int × BkTree)) :
    BkTree.pivots (.node v cs) = v :: BkTree.pivotsC cs := by
  rw [BkTree.pivots]

theorem BkTree.pivotsC_cons (k : Int) (c : BkTree) (rest : List (Int × BkTree)) :
    BkTree.pivotsC ((k, c) :: rest) = BkTree.pivots c ++ BkTree.pivotsC rest := by
  rw [BkTree.pivotsC]

theorem BkTree.pivots_insert (g : Int) (w : List Char) :
    ∀ t, (BkTree.pivots (BkTree.insert g t w)).Perm (w :: BkTree.pivots t) := by
  intro t
  induction t using BkTree.myInduction with
  | _ v cs ih =>
      have inner : ∀ (d : Int) (cs' : List (Int × BkTree)),
          (∀ k c, (k, c) ∈ cs' →
            (BkTree.pivots (BkTree.insert g c w)).Perm (w :: BkTree.pivots c)) →
          (BkTree.pivotsC (BkTree.insertC g d w cs')).Perm (w :: BkTree.pivotsC cs') := by
        intro d cs'
        induction cs' with
        | nil =>
            intro _
            rw [BkTree.insertC, BkTree.pivotsC_cons, BkTree.pivots_node]
            exact List.Perm.refl _
        | cons kc rest ihr =>
            rcases kc with ⟨k, c⟩
            intro hmem
            rw [BkTree.insertC]
            split
            case isTrue =>
              rw [BkTree.pivotsC_cons, BkTree.pivots_node, BkTree.pivotsC_cons]
              exact List.Perm.refl _
            case isFalse h1 =>
              split
              case isTrue h2 =>
                rw [BkTree.pivotsC_cons, BkTree.pivotsC_cons]
                have hc := hmem k c (List.mem_cons_self _ _)
                exact hc.append_right (BkTree.pivotsC rest)
              case isFalse h2 =>
                rw [BkTree.pivotsC_cons, BkTree.pivotsC_cons]
                have hrest := ihr (fun k' c' h' => hmem k' c' (List.mem_cons_of_mem _ h'))
                exact (hrest.append_left (BkTree.pivots c)).trans List.perm_middle
      rw [BkTree.insert, BkTree.pivots_node, BkTree.pivots_node]
      have h := inner (edit_distance g v w) cs ih
      exact (h.cons v).trans (List.Perm.swap w v _)

theorem BkTree.pivots_foldl (g : Int) :
    ∀ (ws : List (List Char)) (t : BkTree),
      (BkTree.pivots (ws.foldl (BkTree.insert g) t)).Perm (ws ++ BkTree.pivots t) := by
  intro ws
  induction ws with
  | nil => intro t; exact List.Perm.refl _
  | cons w ws' ih =>
      intro t
      rw [List.foldl_cons]
      have h1 := ih (BkTree.insert g t w)
      have h2 := (BkTree.pivots_insert g w t).append_left ws'
      exact (h1.trans h2).trans List.perm_middle

theorem BkTree.pivots_build (g : Int) (w0 : List Char) (ws : List (List Char)) :
    (BkTree.pivots (BkTree.build g w0 ws)).Perm (w0 :: ws) := by
  have h1 := BkTree.pivots_foldl g ws (BkTree.node w0 [])
  have h2 : ws ++ BkTree.pivots (BkTree.node w0 []) = ws ++ [w0] := rfl
  rw [BkTree.build]
  exact (h2 ▸ h1).trans (List.perm_append_singleton w0 ws)

/-- Strong well-formedness invariant of trees built by `insert`: at
every node the child keys are strictly increasing (as in `std::map`),
and the key of each child equals the `edit_distance` from the node
pivot to EVERY word stored in that child's subtree (each such word
was routed through this node with that distance). -/
inductive BkTree.WFS (g : Int) : BkTree → Prop where
  | node (v : List Char) (cs : List (Int × BkTree)) :
      (∀ k c, (k, c) ∈ cs → BkTree.WFS g c) →
      (∀ k c, (k, c) ∈ cs → ∀ x ∈ BkTree.pivots c, edit_distance g v x = k) →
      List.Pairwise (· < ·) (cs.map Prod.fst) →
      BkTree.WFS g (.node v cs)

theorem BkTree.WFS_leaf (g : Int) (w : List Char) : BkTree.WFS g (.node w []) := by
  refine BkTree.WFS.node w [] ?_ ?_ ?_ <;> simp

theorem BkTree.insertC_keys_subset (g d : Int) (w : List Char) :
    ∀ cs : List (Int × BkTree),
      ((BkTree.insertC g d w cs).map Prod.fst) ⊆ d :: cs.map Prod.fst := by
  intro cs
  induction cs with
  | nil => rw [BkTree.insertC]; simp
  | cons kc rest ih =>
      rcases kc with ⟨k, c⟩
      rw [BkTree.insertC]
      split
      case isTrue => simp
      case isFalse h1 =>
        split
        case isTrue h2 => simp [h2]
        case isFalse h2 =>
          simp only [List.map_cons]
          intro x hx
          rcases List.mem_cons.mp hx with rfl | hx'
          · simp
          · have := ih hx'
            rcases List.mem_cons.mp this with rfl | h3
            · simp
            · simp only [List.mem_cons]
              right; right; exact h3

theorem BkTree.insertC_keys_sorted (g d : Int) (w : List Char) :
    ∀ cs : List (Int × BkTree),
      List.Pairwise (· < ·) (cs.map Prod.fst) →
      List.Pairwise (· < ·) ((BkTree.insertC g d w cs).map Prod.fst) := by
  intro cs
  induction cs with
  | nil => intro _; rw [BkTree.insertC]; simp
  | cons kc rest ih =>
      rcases kc with ⟨k, c⟩
      intro hp
      rw [List.map_cons, List.pairwise_cons] at hp
      rcases hp with ⟨hklt, hrest⟩
      rw [BkTree.insertC]
      split
      case isTrue hdk =>
        simp only [List.map_cons, List.pairwise_cons]
        refine ⟨?_, ?_, hrest⟩
        · intro x hx
          rcases List.mem_cons.mp hx with rfl | hx'
          · exact hdk
          · exact lt_trans hdk (hklt x hx')
        · exact hklt
      case isFalse h1 =>
        split
        case isTrue h2 =>
          simp only [List.map_cons, List.pairwise_cons]
          exact ⟨hklt, hrest⟩
        case isFalse h2 =>
          simp only [List.map_cons, List.pairwise_cons]
          refine ⟨?_, ih hrest⟩
          intro x hx
          have := BkTree.insertC_keys_subset g d w rest hx
          rcases List.mem_cons.mp this with rfl | h3
          · omega
          · exact hklt x h3

theorem BkTree.insertC_mem_cases (g d : Int) (w : List Char) :
    ∀ (cs : List (Int × BkTree)) (k' : Int) (c' : BkTree),
      (k', c') ∈ BkTree.insertC g d w cs →
      ((k', c') ∈ cs ∨ (k' = d ∧ c' = .node w []) ∨
        (∃ c, (d, c) ∈ cs ∧ k' = d ∧ c' = BkTree.insert g c w)) := by
  intro cs
  induction cs with
  | nil =>
      intro k' c' h
      rw [BkTree.insertC] at h
      rcases List.mem_cons.mp h with h1 | h1
      · right; left; exact ⟨(Prod.ext_iff.mp h1).1, (Prod.ext_iff.mp h1).2⟩
      · simp at h1
  | cons kc rest ih =>
      rcases kc with ⟨k, c⟩
      intro k' c' h
      rw [BkTree.insertC] at h
      split at h
      case isTrue =>
        rcases List.mem_cons.mp h with h1 | h1
        · right; left; exact ⟨(Prod.ext_iff.mp h1).1, (Prod.ext_iff.mp h1).2⟩
        · left; exact h1
      case isFalse h1 =>
        split at h
        case isTrue h2 =>
          rcases List.mem_cons.mp h with h3 | h3
          · right; right
            refine ⟨c, ?_, ?_, ?_⟩
            · rw [← h2]; exact List.mem_cons_self _ _
            · exact ((Prod.ext_iff.mp h3).1).trans h2
            · exact (Prod.ext_iff.mp h3).2
          · left; exact List.mem_cons_of_mem _ h3
        case isFalse h2 =>
          rcases List.mem_cons.mp h with h3 | h3
          · left; rw [h3]; exact List.mem_cons_self _ _
          · rcases ih k' c' h3 with h4 | h4 | ⟨c'', h5, h6, h7⟩
            · left; exact List.mem_cons_of_mem _ h4
            · right; left; exact h4
            · right; right; exact ⟨c'', List.mem_cons_of_mem _ h5, h6, h7⟩

theorem BkTree.insert_WFS (g : Int) (w : List Char) :
    ∀ t, BkTree.WFS g t → BkTree.WFS g (BkTree.insert g t w) := by
  intro t
  induction t using BkTree.myInduction with
  | _ v cs ih =>
      intro hwfs
      cases hwfs with
      | node _ _ hwf hlab hsort =>
          rw [BkTree.insert]
          refine BkTree.WFS.node v _ ?_ ?_
            (BkTree.insertC_keys_sorted g (edit_distance g v w) w cs hsort)
          · intro k' c' hm
            rcases BkTree.insertC_mem_cases g (edit_distance g v w) w cs k' c' hm with
              h1 | h1 | ⟨c, hc, hk, hc'⟩
            · exact hwf k' c' h1
            · rw [h1.2]; exact BkTree.WFS_leaf g w
            · rw [hc']; exact ih _ c hc (hwf _ c hc)
          · intro k' c' hm x hx
            rcases BkTree.insertC_mem_cases g (edit_distance g v w) w cs k' c' hm with
              h1 | h1 | ⟨c, hc, hk, hc'⟩
            · exact hlab k' c' h1 x hx
            · rcases h1 with ⟨hk, hc'⟩
              rw [hc', BkTree.pivots_node] at hx
              have hx' : x = w := by
                rcases List.mem_cons.mp hx with h2 | h2
                · exact h2
                · rw [BkTree.pivotsC] at h2; simp at h2
              rw [hx', hk]
            · rw [hc'] at hx
              rcases List.mem_cons.mp ((BkTree.pivots_insert g w c).mem_iff.mp hx) with
                h2 | h2
              · rw [h2, hk]
              · rw [hk]
                exact hlab _ c hc x h2

theorem BkTree.build_WFS (g : Int) (w0 : List Char) (ws : List (List Char)) :
    BkTree.WFS g (BkTree.build g w0 ws) := by
  have main : ∀ (ws' : List (List Char)) (t : BkTree),
      BkTree.WFS g t → BkTree.WFS g (ws'.foldl (BkTree.insert g) t) := by
    intro ws'
    induction ws' with
    | nil => intro t h; exact h
    | cons w ws' ih =>
        intro t h
        rw [List.foldl_cons]
        exact ih _ (BkTree.insert_WFS g w t h)
  exact main ws _ (BkTree.WFS_leaf g w0)

theorem BkTree.pivotsC_mem_elim :
    ∀ (cs : List (Int × BkTree)) (x : List Char), x ∈ BkTree.pivotsC cs →
      ∃ k c, (k, c) ∈ cs ∧ x ∈ BkTree.pivots c := by
  intro cs
  induction cs with
  | nil => intro x hx; rw [BkTree.pivotsC] at hx; simp at hx
  | cons kc rest ih =>
      rcases kc with ⟨k, c⟩
      intro x hx
      rw [BkTree.pivotsC_cons] at hx
      rcases List.mem_append.mp hx with h1 | h1
      · exact ⟨k, c, List.mem_cons_self _ _, h1⟩
      · rcases ih x h1 with ⟨k', c', hm, hp⟩
        exact ⟨k', c', List.mem_cons_of_mem _ hm, hp⟩

theorem BkTree.pivotsC_mem_intro :
    ∀ (cs : List (Int × BkTree)) (k : Int) (c : BkTree) (x : List Char),
      (k, c) ∈ cs → x ∈ BkTree.pivots c → x ∈ BkTree.pivotsC cs := by
  intro cs
  induction cs with
  | nil => intro k c x hm _; simp at hm
  | cons kc rest ih =>
      rcases kc with ⟨k0, c0⟩
      intro k c x hm hp
      rw [BkTree.pivotsC_cons]
      rcases List.mem_cons.mp hm with h1 | h1
      · have hc : c = c0 := (Prod.ext_iff.mp h1).2
        exact List.mem_append_left _ (hc ▸ hp)
      · exact List.mem_append_right _ (ih k c x h1 hp)

theorem BkTree.nodup_pivotsC_child :
    ∀ (cs : List (Int × BkTree)) (k : Int) (c : BkTree),
      (BkTree.pivotsC cs).Nodup → (k, c) ∈ cs → (BkTree.pivots c).Nodup := by
  intro cs
  induction cs with
  | nil => intro k c _ hm; simp at hm
  | cons kc rest ih =>
      rcases kc with ⟨k0, c0⟩
      intro k c hnd hm
      rw [BkTree.pivotsC_cons] at hnd
      rcases List.mem_cons.mp hm with h1 | h1
      · have hc : c = c0 := (Prod.ext_iff.mp h1).2
        rw [hc]
        exact hnd.of_append_left
      · exact ih k c hnd.of_append_right h1

theorem BkTree.queryC_mem_elim (g : Int) (q : List Char) (n d : Int) :
    ∀ (cs : List (Int × BkTree)) (x : List Char), x ∈ BkTree.queryC g q n d cs →
      ∃ k c, (k, c) ∈ cs ∧ d - n ≤ k ∧ k ≤ d + n ∧ x ∈ BkTree.query g c q n := by
  intro cs
  induction cs with
  | nil => intro x hx; rw [BkTree.queryC] at hx; simp at hx
  | cons kc rest ih =>
      rcases kc with ⟨k, c⟩
      intro x hx
      rw [BkTree.queryC] at hx
      rcases List.mem_append.mp hx with h1 | h1
      · split at h1
        case isTrue hw => exact ⟨k, c, List.mem_cons_self _ _, hw.1, hw.2, h1⟩
        case isFalse => simp at h1
      · rcases ih x h1 with ⟨k', c', hm, hw1, hw2, hq⟩
        exact ⟨k', c', List.mem_cons_of_mem _ hm, hw1, hw2, hq⟩

theorem BkTree.queryC_mem_intro (g : Int) (q : List Char) (n d : Int) :
    ∀ (cs : List (Int × BkTree)) (k : Int) (c : BkTree) (x : List Char),
      (k, c) ∈ cs → d - n ≤ k → k ≤ d + n → x ∈ BkTree.query g c q n →
      x ∈ BkTree.queryC g q n d cs := by
  intro cs
  induction cs with
  | nil => intro k c x hm _ _ _; simp at hm
  | cons kc rest ih =>
      rcases kc with ⟨k0, c0⟩
      intro k c x hm hw1 hw2 hq
      rw [BkTree.queryC]
      rcases List.mem_cons.mp hm with h1 | h1
      · refine List.mem_append_left _ ?_
        have hk : k0 = k := ((Prod.ext_iff.mp h1).1).symm
        have hc : c0 = c := ((Prod.ext_iff.mp h1).2).symm
        rw [hk, hc, if_pos ⟨hw1, hw2⟩]
        exact hq
      · exact List.mem_append_right _ (ih k c x h1 hw1 hw2 hq)

theorem BkTree.query_sound (g : Int) (q : List Char) (n : Int) :
    ∀ t x, x ∈ BkTree.query g t q n →
      x ∈ BkTree.pivots t ∧ edit_distance g x q ≤ n := by
  intro t
  induction t using BkTree.myInduction with
  | _ v cs ih =>
      intro x hx
      rw [BkTree.query] at hx
      rw [BkTree.pivots_node]
      rcases List.mem_append.mp hx with h1 | h1
      · split at h1
        case isTrue hd =>
          have hxv : x = v := by simpa using h1
          exact ⟨by rw [hxv]; exact List.mem_cons_self _ _, by rw [hxv]; exact hd⟩
        case isFalse => simp at h1
      · rcases BkTree.queryC_mem_elim g q n _ cs x h1 with ⟨k, c, hm, _, _, hq⟩
        rcases ih k c hm x hq with ⟨hp, hd⟩
        exact ⟨List.mem_cons_of_mem _ (BkTree.pivotsC_mem_intro cs k c x hm hp), hd⟩

theorem BkTree.query_complete (g : Int) (q : List Char) (n : Int) :
    ∀ t, BkTree.WFS g t → (BkTree.pivots t).Nodup →
      (∀ v ∈ BkTree.pivots t, ¬(v = [] ∧ q = [])) →
      ∀ x, x ∈ BkTree.pivots t → edit_distance g x q ≤ n →
      x ∈ BkTree.query g t q n := by
  intro t
  induction t using BkTree.myInduction with
  | _ v cs ih =>
      intro hwfs hnd hcorner x hx hdist
      cases hwfs with
      | node _ _ hwf hlab _ =>
          rw [BkTree.pivots_node] at hx hnd hcorner
          rw [BkTree.query]
          rcases List.mem_cons.mp hx with rfl | hx'
          · rw [if_pos hdist]
            exact List.mem_append_left _ (List.mem_cons_self _ _)
          · rcases BkTree.pivotsC_mem_elim cs x hx' with ⟨k, c, hkc, hxc⟩
            have hk : edit_distance g v x = k := hlab k c hkc x hxc
            have hv : ¬(v = [] ∧ q = []) := hcorner v (List.mem_cons_self _ _)
            have hxq : ¬(x = [] ∧ q = []) := hcorner x (List.mem_cons_of_mem _ hx')
            have hvx : ¬(v = [] ∧ x = []) := by
              rintro ⟨rfl, rfl⟩
              exact (List.nodup_cons.mp hnd).1 hx'
            have tri1 : edit_distance g v q ≤ edit_distance g v x + edit_distance g x q :=
              edit_distance_triangle g v x q hv hvx hxq
            have tri2 : edit_distance g v x ≤ edit_distance g v q + edit_distance g q x :=
              edit_distance_triangle g v q x hvx hv (fun hc => hxq ⟨hc.2, hc.1⟩)
            have hco : edit_distance g q x = edit_distance g x q :=
              edit_distance_comm g q x (fun hc => hxq ⟨hc.2, hc.1⟩)
            have hw1 : edit_distance g v q - n ≤ k := by
              rw [← hk]; omega
            have hw2 : k ≤ edit_distance g v q + n := by
              rw [← hk]; rw [hco] at tri2; omega
            have hinner : x ∈ BkTree.query g c q n := by
              refine ih k c hkc (hwf k c hkc) ?_ ?_ x hxc hdist
              · exact BkTree.nodup_pivotsC_child cs k c (List.nodup_cons.mp hnd).2 hkc
              · intro v' hv'
                exact hcorner v'
                  (List.mem_cons_of_mem _ (BkTree.pivotsC_mem_intro cs k c v' hkc hv'))
            exact List.mem_append_right _
              (BkTree.queryC_mem_intro g q n _ cs k c x hkc hw1 hw2 hinner)

/-- The central characterization: a word is emitted by a query on the
built index exactly when it is a dictionary word within distance `n`
of the query (assuming distinct words and no both-empty
`edit_distance` corner). -/
theorem BkTree.query_build_iff (g : Int) (w0 : List Char) (ws : List (List Char))
    (q : List Char) (n : Int) (hnd : (w0 :: ws).Nodup)
    (hcorner : ¬([] ∈ (w0 :: ws) ∧ q = [])) (x : List Char) :
    x ∈ BkTree.query g (BkTree.build g w0 ws) q n ↔
      x ∈ (w0 :: ws) ∧ edit_distance g x q ≤ n := by
  have hperm := BkTree.pivots_build g w0 ws
  constructor
  · intro hx
    rcases BkTree.query_sound g q n _ x hx with ⟨hp, hd⟩
    exact ⟨hperm.mem_iff.mp hp, hd⟩
  · rintro ⟨hxD, hdist⟩
    refine BkTree.query_complete g q n _ (BkTree.build_WFS g w0 ws) ?_ ?_ x
      (hperm.mem_iff.mpr hxD) hdist
    · exact (hperm.nodup_iff).mpr hnd
    · intro v hv
      rintro ⟨rfl, rfl⟩
      exact hcorner ⟨hperm.mem_iff.mp hv, rfl⟩

/-- The brute-force baseline of `main` (`src/bktree/bktree.cc`,
lines 185-195): keep the dictionary words `w` with
`edit_distance_bound(w, query, n) ≤ n`. -/
def brute_force (g' : Int) (D : List (List Char)) (q : List Char) (n : Int) :
    List (List Char) :=
  D.filter (fun w => decide (edit_distance_bound g' w q n ≤ n))

theorem brute_force_mem (g' : Int) (D : List (List Char)) (q : List Char) (n : Int)
    (x : List Char) :
    x ∈ brute_force g' D q n ↔ x ∈ D ∧ edit_distance_bound g' x q n ≤ n := by
  rw [brute_force, List.mem_filter, decide_eq_true_iff]

theorem edit_distance_bound_le_iff (g g' : Int) (x q : List Char) (n : Int)
    (h : ¬(x = [] ∧ q = [])) :
    edit_distance_bound g' x q n ≤ n ↔ edit_distance g x q ≤ n := by
  rcases edit_distance_bound_spec g g' x q n h with ⟨h1, h2⟩
  constructor
  · intro hb
    by_contra hgt
    have := h2 (by omega)
    omega
  · intro hd
    rw [h1 hd]
    exact hd

/-- Labels-only well-formedness, the invariant named by the spec,
stated against the TRUE Levenshtein distance (`levd`) of the pivots:
every child key equals the Levenshtein distance from the parent pivot
to the child pivot, and sibling keys are pairwise distinct.  This
predicate does not mention the junk value: a `"" -> ""` edge labelled
with uninitialized garbage is NOT well formed under it. -/
inductive BkTree.WFedges : BkTree → Prop where
  | node (v : List Char) (cs : List (Int × BkTree)) :
      (∀ k c, (k, c) ∈ cs → BkTree.WFedges c) →
      (∀ k c, (k, c) ∈ cs → (levd v (BkTree.pivot c) : Int) = k) →
      List.Pairwise (· ≠ ·) (cs.map Prod.fst) →
      BkTree.WFedges (.node v cs)

theorem BkTree.pivot_mem_pivots : ∀ t : BkTree, BkTree.pivot t ∈ BkTree.pivots t := by
  intro t
  cases t with
  | node v cs =>
      rw [BkTree.pivot, BkTree.pivots_node]
      exact List.mem_cons_self _ _

/-- Number of empty words in a word list. -/
def countEmpty (l : List (List Char)) : Nat :=
  l.countP (fun w => decide (w = []))

theorem countEmpty_cons (w : List Char) (l : List (List Char)) :
    countEmpty (w :: l) = countEmpty l + if w = [] then 1 else 0 := by
  rw [countEmpty, countEmpty, List.countP_cons]
  by_cases h : w = [] <;> simp [h]

theorem countEmpty_pos_of_mem {l : List (List Char)} (h : ([] : List Char) ∈ l) :
    0 < countEmpty l :=
  List.countP_pos_iff.mpr ⟨[], h, by simp⟩

theorem countEmpty_append (l1 l2 : List (List Char)) :
    countEmpty (l1 ++ l2) = countEmpty l1 + countEmpty l2 :=
  List.countP_append _ l1 l2

theorem BkTree.countEmpty_pivotsC_child :
    ∀ (cs : List (Int × BkTree)) (k : Int) (c : BkTree),
      (k, c) ∈ cs → countEmpty (BkTree.pivots c) ≤ countEmpty (BkTree.pivotsC cs) := by
  intro cs
  induction cs with
  | nil => intro k c hm; simp at hm
  | cons kc rest ih =>
      rcases kc with ⟨k0, c0⟩
      intro k c hm
      rw [BkTree.pivotsC_cons, countEmpty_append]
      rcases List.mem_cons.mp hm with h1 | h1
      · have hc : c = c0 := (Prod.ext_iff.mp h1).2
        rw [hc]
        omega
      · have := ih k c h1
        omega

/-- A tree satisfying the internal invariant `WFS g` whose pivots
contain at most one empty word has no `"" -> ""` edge, so every edge
label is the value `edit_distance` computes away from its
uninitialized corner — the true Levenshtein distance. -/
theorem BkTree.WFS_to_WFedges (g : Int) :
    ∀ t, BkTree.WFS g t → countEmpty (BkTree.pivots t) ≤ 1 →
      BkTree.WFedges t := by
  intro t
  induction t using BkTree.myInduction with
  | _ v cs ih =>
      intro h hcount
      rw [BkTree.pivots_node, countEmpty_cons] at hcount
      cases h with
      | node _ _ hwf hlab hsort =>
          refine BkTree.WFedges.node v cs ?_ ?_ ?_
          · intro k c hm
            refine ih k c hm (hwf k c hm) ?_
            have h1 := BkTree.countEmpty_pivotsC_child cs k c hm
            have h2 : (0:Nat) ≤ if v = [] then 1 else 0 := Nat.zero_le _
            omega
          · intro k c hm
            have hk : edit_distance g v (BkTree.pivot c) = k :=
              hlab k c hm (BkTree.pivot c) (BkTree.pivot_mem_pivots c)
            have hcor : ¬(v = [] ∧ BkTree.pivot c = []) := by
              rintro ⟨rfl, hp⟩
              have hmem : ([] : List Char) ∈ BkTree.pivotsC cs :=
                hp ▸ BkTree.pivotsC_mem_intro cs k c (BkTree.pivot c) hm
                  (BkTree.pivot_mem_pivots c)
              have h1 : 0 < countEmpty (BkTree.pivotsC cs) :=
                countEmpty_pos_of_mem hmem
              rw [if_pos rfl] at hcount
              omega
            rw [← edit_distance_eq_levd g v (BkTree.pivot c) hcor]
            exact hk
          · exact hsort.imp ne_of_lt

/-! ### Corner finder (`src/cv/find_corners.c`)

Floating-point values enter only through `cos` / `sin` on the angle
and through monotone rescalings; the properties claimed are about the
discrete branch structure, which the models below capture exactly:

* hough voting (lines 41-55): each foreground pixel increments, for
  every angle bin `a`, exactly one cell `(ri, a)`; which radius bin is
  chosen is a float computation abstracted as a function `b`;
* non-maximum suppression window indexing (lines 78-96): pure integer
  arithmetic, modelled verbatim;
* line pairing (lines 102-128): comparisons `fabs(deg1 - deg0) < 10°`
  and `radius > radius'` where `deg = a·π/360` and
  `radius = r·ρmax/(R-1)` for integer bins `a`, `r`; in exact
  arithmetic these are `|a1 - a0| < 20` and `r1 > r2`, so peaks are
  modelled as integer `(angle bin, radius bin)` pairs;
* `intersect` (lines 11-27): exact rational arithmetic with the
  cosine/sine values supplied as an oracle parameter. -/

/-- `for (v = lo; v <= hi; ++v)` iteration range. -/
def intRange (lo hi : Int) : List Int :=
  (List.range (hi + 1 - lo).toNat).map (fun i => lo + i)

/-- The angle-index adjustment of the NMS sweep:
`int aii = ad < 0 ? ad + kNumAngles : ad;` with `kNumAngles = 360`.
Indices `ad ≥ 360` are NOT wrapped. -/
def nmsAii (ad : Int) : Int := if ad < 0 then ad + 360 else ad

/-- The flat `houghmap` indices `rd * kNumAngles + aii` accessed by
the NMS neighborhood sweep around seed `(ri, ai)` (`k = 31`, so the
half-side is `k/2 = 15`): `rd` runs over
`imax(ri-15, 0) .. imin(ri+15, R-1)` and `ad` over `ai-15 .. ai+15`. -/
def nmsIndices (R ri ai : Int) : List Int :=
  (intRange (max (ri - 15) 0) (min (ri + 15) (R - 1))).flatMap
    (fun rd => (intRange (ai - 15) (ai + 15)).map (fun ad => rd * 360 + nmsAii ad))

/-- Line-pairing state: `lines[0..3]` as integer (angle bin, radius
bin) pairs and the two `line_set` flags.  The C `lines` array is
uninitialized before the first peak; the model simply carries
whatever initial values the state starts with. -/
structure LPState where
  l0 : Int × Int
  l1 : Int × Int
  l2 : Int × Int
  l3 : Int × Int
  set0 : Bool
  set1 : Bool
deriving DecidableEq

/-- Processing of one peak `(angle bin, radius bin)` by the pairing
block of `find_corners` (lines 102-128), in exact arithmetic:
`fabs(deg - lines[0][0]) < 10 * M_PI / 180` with `deg = a·π/360`
is `|a - a0| < 20`, and `radius > lines[j][1]` is `r > rj`. -/
def lpStep (st : LPState) (p : Int × Int) : LPState :=
  if st.set0 = false then
    { st with l0 := p, l1 := p, set0 := true }
  else if |p.1 - st.l0.1| < 20 then
    (if st.l1.2 < p.2 then { st with l1 := p } else st)
  else if st.set1 = false then
    { st with l2 := p, l3 := p, set1 := true }
  else if st.l3.2 < p.2 then { st with l3 := p } else st

/-- `intersect` (`src/cv/find_corners.c`, lines 11-27) over exact
rationals, with the float `cos` / `sin` supplied by an oracle.
Returns `none` exactly when `|nx1*ny2 - nx2*ny1| < 0.0001`; on
success the intersection point (with the compensating absolute
values) is returned, the written-out result of the two
`point[..] = ...` stores. -/
def intersect (cosO sinO : ℚ → ℚ) (l1 l2 : ℚ × ℚ) : Option (ℚ × ℚ) :=
  let nx1 := cosO l1.1
  let ny1 := sinO l1.1
  let nx2 := cosO l2.1
  let ny2 := sinO l2.1
  let d := nx1 * ny2 - nx2 * ny1
  if |d| < 1 / 10000 then none
  else some (|(ny2 * l1.2 - ny1 * l2.2) / d|, |(nx1 * l2.2 - nx2 * l1.2) / d|)

/-- The caller-provided `float corners[4][2]`. -/
structure Corners4 where
  c0 : ℚ × ℚ
  c1 : ℚ × ℚ
  c2 : ℚ × ℚ
  c3 : ℚ × ℚ
deriving DecidableEq

/-- The final statement of `find_corners`:
`return intersect(corners[0], lines[0], lines[2]) && ... ;`
with short-circuit `&&`.  Each successful `intersect` call writes its
corner before the next call runs; a failing call stops the chain.
The function returns the flag and the final contents of the output
array (whose initial, stale contents are `c`). -/
def find_corners_return (cosO sinO : ℚ → ℚ) (L0 L1 L2 L3 : ℚ × ℚ) (c : Corners4) :
    Bool × Corners4 :=
  match intersect cosO sinO L0 L2 with
  | none => (false, c)
  | some p0 =>
    match intersect cosO sinO L0 L3 with
    | none => (false, { c with c0 := p0 })
    | some p1 =>
      match intersect cosO sinO L1 L2 with
      | none => (false, { c with c0 := p0, c1 := p1 })
      | some p2 =>
        match intersect cosO sinO L1 L3 with
        | none => (false, { c with c0 := p0, c1 := p1, c2 := p2 })
        | some p3 => (true, { c0 := p0, c1 := p1, c2 := p2, c3 := p3 })

/-! ### Hough accumulation (`src/cv/find_corners.c`, lines 41-55)

`houghmap` is a flat array of `kNumRadii * kNumAngles` unsigned
counters, all zero after `calloc`.  For every pixel with sample
`≠ 255` and every angle bin `a < 360` the code increments exactly one
cell `houghmap[ri*360 + a]`, where the radius bin
`ri = fabs(x cos + y sin) * (R-1) / rho_max` is a float computation
modelled by the abstract binning function `b`. -/

def accum1 (m : Nat → Nat) (i : Nat) : Nat → Nat :=
  fun j => if j = i then m j + 1 else m j

def accumAngles (b : Nat → Nat → Nat → Nat) (x y : Nat) (m : Nat → Nat) : Nat → Nat :=
  (List.range 360).foldl (fun m' a => accum1 m' (b x y a * 360 + a)) m

def houghAccumulate (W H : Nat) (data : Nat → Nat → Nat)
    (b : Nat → Nat → Nat → Nat) : Nat → Nat :=
  (List.range H).foldl
    (fun m y =>
      (List.range W).foldl
        (fun m' x => if data y x = 255 then m' else accumAngles b x y m') m)
    (fun _ => 0)

/-- Sum of the angle-`a` column over all `R` radius bins. -/
def colSum (m : Nat → Nat) (R a : Nat) : Nat :=
  ((List.range R).map (fun ri => m (ri * 360 + a))).sum

/-- Number of pixels with sample `≠ 255`. -/
def foreground_count (W H : Nat) (data : Nat → Nat → Nat) : Nat :=
  ((List.range H).map
    (fun y => ((List.range W).filter (fun x => decide (data y x ≠ 255))).length)).sum

theorem colSum_accum1_miss (m : Nat → Nat) (R a i : Nat)
    (h : ∀ ri, ri < R → i ≠ ri * 360 + a) :
    colSum (accum1 m i) R a = colSum m R a := by
  rw [colSum, colSum]
  apply congrArg
  apply List.map_congr_left
  intro ri hri
  rw [accum1]
  rw [if_neg]
  intro hc
  exact h ri (List.mem_range.mp hri) hc.symm

theorem colSum_accum1_hit (m : Nat → Nat) (R a ri : Nat) (hri : ri < R) :
    colSum (accum1 m (ri * 360 + a)) R a = colSum m R a + 1 := by
  induction R with
  | zero => omega
  | succ R ih =>
      have hsucc : ∀ m' : Nat → Nat, colSum m' (R + 1) a = colSum m' R a + m' (R * 360 + a) := by
        intro m'
        rw [colSum, colSum, List.range_succ, List.map_append, List.sum_append]
        simp
      rw [hsucc, hsucc]
      by_cases hR : ri = R
      · subst hR
        have hmiss : colSum (accum1 m (ri * 360 + a)) ri a = colSum m ri a := by
          apply colSum_accum1_miss
          intro ri' hri' hc
          omega
        rw [hmiss, accum1, if_pos rfl]
        omega
      · have hlt : ri < R := by omega
        rw [ih hlt, accum1, if_neg (by omega)]
        omega

theorem colSum_accumAngles (b : Nat → Nat → Nat → Nat) (x y : Nat)
    (m : Nat → Nat) (R a : Nat) (ha : a < 360)
    (hb : ∀ a', a' < 360 → b x y a' < R) :
    colSum (accumAngles b x y m) R a = colSum m R a + 1 := by
  have main : ∀ (as : List Nat) (m' : Nat → Nat),
      (∀ a' ∈ as, a' < 360) →
      colSum ((as.foldl (fun mm a' => accum1 mm (b x y a' * 360 + a')) m')) R a
        = colSum m' R a + as.count a := by
    intro as
    induction as with
    | nil => intro m' _; simp
    | cons a0 rest ih =>
        intro m' hlt
        rw [List.foldl_cons]
        rw [ih _ (fun a' h' => hlt a' (List.mem_cons_of_mem _ h'))]
        by_cases hc : a0 = a
        · subst hc
          rw [colSum_accum1_hit m' R a0 (b x y a0) (hb a0 (hlt a0 (List.mem_cons_self _ _)))]
          rw [List.count_cons_self]
          omega
        · rw [colSum_accum1_miss m' R a _ ?_]
          · rw [List.count_cons_of_ne (by exact fun h => hc (by simpa using h.symm))]
          · intro ri hri heq
            have ha0 : a0 < 360 := hlt a0 (List.mem_cons_self _ _)
            omega
  rw [accumAngles, main (List.range 360) m (fun a' h' => List.mem_range.mp h')]
  rw [List.count_eq_one_of_mem (List.nodup_range 360) (List.mem_range.mpr ha)]

theorem colSum_row (b : Nat → Nat → Nat → Nat) (data : Nat → Nat → Nat)
    (R a y : Nat) (ha : a < 360) :
    ∀ (xs : List Nat) (m : Nat → Nat),
      (∀ x ∈ xs, data y x ≠ 255 → ∀ a', a' < 360 → b x y a' < R) →
      colSum (xs.foldl
        (fun m' x => if data y x = 255 then m' else accumAngles b x y m') m) R a
        = colSum m R a + (xs.filter (fun x => decide (data y x ≠ 255))).length := by
  intro xs
  induction xs with
  | nil => intro m _; simp
  | cons x0 rest ih =>
      intro m hb
      rw [List.foldl_cons, ih _ (fun x hx => hb x (List.mem_cons_of_mem _ hx))]
      by_cases hfg : data y x0 = 255
      · rw [if_pos hfg]
        rw [List.filter_cons_of_neg (by simp [hfg])]
      · rw [if_neg hfg]
        rw [colSum_accumAngles b x0 y m R a ha
          (hb x0 (List.mem_cons_self _ _) hfg)]
        rw [List.filter_cons_of_pos (by simp [hfg])]
        simp only [List.length_cons]
        omega

theorem colSum_hough (W H : Nat) (data : Nat → Nat → Nat)
    (b : Nat → Nat → Nat → Nat) (R a : Nat) (ha : a < 360)
    (hb : ∀ x y a', x < W → y < H → a' < 360 → data y x ≠ 255 → b x y a' < R) :
    colSum (houghAccumulate W H data b) R a = foreground_count W H data := by
  have main : ∀ (ys : List Nat) (m : Nat → Nat),
      (∀ y ∈ ys, y < H) →
      colSum (ys.foldl
        (fun mm y =>
          (List.range W).foldl
            (fun m' x => if data y x = 255 then m' else accumAngles b x y m') mm) m) R a
        = colSum m R a +
          ((ys.map
            (fun y => ((List.range W).filter (fun x => decide (data y x ≠ 255))).length)).sum) := by
    intro ys
    induction ys with
    | nil => intro m _; simp
    | cons y0 rest ih =>
        intro m hy
        rw [List.foldl_cons, ih _ (fun y h => hy y (List.mem_cons_of_mem _ h))]
        rw [colSum_row b data R a y0 ha (List.range W) m ?_]
        · simp only [List.map_cons, List.sum_cons]
          omega
        · intro x hx hfg a' ha'
          exact hb x y0 a' (List.mem_range.mp hx) (hy y0 (List.mem_cons_self _ _)) ha' hfg
  rw [houghAccumulate, main (List.range H) _ (fun y h => List.mem_range.mp h)]
  rw [foreground_count]
  have hz : colSum (fun _ => 0) R a = 0 := by
    rw [colSum]
    simp
  omega

theorem cell_le_colSum (m : Nat → Nat) (R a ri : Nat) (hri : ri < R) :
    m (ri * 360 + a) ≤ colSum m R a := by
  rw [colSum]
  apply List.le_sum_of_mem
  exact List.mem_map_of_mem _ (List.mem_range.mpr hri)

theorem foreground_count_le (W H : Nat) (data : Nat → Nat → Nat) :
    foreground_count W H data ≤ W * H := by
  rw [foreground_count]
  have hrow : ∀ y, ((List.range W).filter (fun x => decide (data y x ≠ 255))).length ≤ W := by
    intro y
    calc ((List.range W).filter (fun x => decide (data y x ≠ 255))).length
        ≤ (List.range W).length := List.length_filter_le _ _
      _ = W := List.length_range W
  have main : ∀ ys : List Nat,
      ((ys.map
        (fun y => ((List.range W).filter (fun x => decide (data y x ≠ 255))).length)).sum)
        ≤ W * ys.length := by
    intro ys
    induction ys with
    | nil => simp
    | cons y0 rest ih =>
        simp only [List.map_cons, List.sum_cons, List.length_cons]
        have := hrow y0
        have := ih
        nlinarith
  calc ((List.range H).map _).sum ≤ W * (List.range H).length := main (List.range H)
    _ = W * H := by rw [List.length_range]

/-! ### Claims -/

/-- C1, counterexample to the claim as stated: with dictionary
`["", "a"]` and query `""`, the query outcome depends on the
uninitialized `row[0]` read by `edit_distance("","")` (modelled here
as the value 5): the root pivot `""` computes distance 5 to the
query, is not emitted, and the window `[4, 6]` skips the child at
distance 1, so `"a"` is lost even though its edit distance to the
query is 1. -/
theorem claim_C1_cex :
    ¬ (['a'] ∈ BkTree.query 5 (BkTree.build 5 [] [['a']]) [] 1 ↔
        ['a'] ∈ [([] : List Char), ['a']] ∧ edit_distance 5 ['a'] [] ≤ 1) := by
  decide

/-- C1 (amended): for every dictionary `w0 :: ws` of distinct words,
query `q` and radius `n ≥ 0`, PROVIDED the dictionary does not
contain the empty word while the query is empty (so that no
`edit_distance` call hits its uninitialized-read corner), the set of
words emitted by `query` on the built index is exactly the set of
dictionary words within edit distance `n` of `q` — no false
negatives, no false positives — and the emitted set is invariant
under permuting the dictionary (insertion order), all uniformly in
the junk value `g`. -/
theorem claim_C1 (g : Int) (w0 : List Char) (ws : List (List Char))
    (q : List Char) (n : Int) (_hn : 0 ≤ n) (hnd : (w0 :: ws).Nodup)
    (hcorner : ¬([] ∈ (w0 :: ws) ∧ q = [])) :
    (∀ x, x ∈ BkTree.query g (BkTree.build g w0 ws) q n ↔
        x ∈ (w0 :: ws) ∧ edit_distance g x q ≤ n) ∧
    (∀ w0' ws', (w0' :: ws').Perm (w0 :: ws) →
        ∀ x, x ∈ BkTree.query g (BkTree.build g w0' ws') q n ↔
          x ∈ BkTree.query g (BkTree.build g w0 ws) q n) := by
  have h1 := fun x => BkTree.query_build_iff g w0 ws q n hnd hcorner x
  refine ⟨h1, ?_⟩
  intro w0' ws' hperm x
  have hnd' : (w0' :: ws').Nodup := hperm.nodup_iff.mpr hnd
  have hcorner' : ¬([] ∈ (w0' :: ws') ∧ q = []) := by
    rintro ⟨hmem, rfl⟩
    exact hcorner ⟨hperm.mem_iff.mp hmem, rfl⟩
  rw [BkTree.query_build_iff g w0' ws' q n hnd' hcorner' x, h1 x, hperm.mem_iff]

/-- C1 witness. -/
theorem claim_C1_witness :
    ['a', 'b'] ∈ BkTree.query 0 (BkTree.build 0 ['b'] [['a', 'b']]) ['a'] 1 ↔
      ['a', 'b'] ∈ [['b'], ['a', 'b']] ∧ edit_distance 0 ['a', 'b'] ['a'] ≤ 1 :=
  (claim_C1 0 ['b'] [['a', 'b']] ['a'] 1 (by decide) (by decide) (by decide)).1 ['a', 'b']

/-- C2, counterexample to the claim as stated: for `s = t = ""` both
functions return their own uninitialized `row[0]` (separate stack
frames, modelled as 0 for `edit_distance` and 7 for
`edit_distance_bound`), so with `k = 0` the true distance `d = 0`
satisfies `d ≤ k` yet `BoundedEditDistance` does not return `d`. -/
theorem claim_C2_cex :
    edit_distance 0 [] [] ≤ 0 ∧
      edit_distance_bound 7 [] [] 0 ≠ edit_distance 0 [] [] := by
  decide

/-- C2 (amended): for all `s, t` NOT BOTH EMPTY (so neither function
reads its uninitialized `row[0]`) and every `k ≥ 0`, with
`d = EditDistance(s, t)`: `BoundedEditDistance(s, t, k)` returns
exactly `d` when `d ≤ k` and a value strictly greater than `k` when
`d > k`, uniformly in the two junk values `g`, `gb`. -/
theorem claim_C2 (g gb : Int) (s t : List Char) (k : Int) (_hk : 0 ≤ k)
    (h : ¬(s = [] ∧ t = [])) :
    (edit_distance g s t ≤ k → edit_distance_bound gb s t k = edit_distance g s t) ∧
    (k < edit_distance g s t → k < edit_distance_bound gb s t k) :=
  edit_distance_bound_spec g gb s t k h

/-- C2 witness: `s = "ab"`, `t = "b"`, `k = 1`, `d = 1`. -/
theorem claim_C2_witness :
    (edit_distance 0 ['a', 'b'] ['b'] ≤ 1 →
        edit_distance_bound 0 ['a', 'b'] ['b'] 1 = edit_distance 0 ['a', 'b'] ['b']) ∧
    (1 < edit_distance 0 ['a', 'b'] ['b'] →
        1 < edit_distance_bound 0 ['a', 'b'] ['b'] 1) :=
  claim_C2 0 0 ['a', 'b'] ['b'] 1 (by decide) (by decide)

/-- C3, counterexample to the claim as stated: dictionary `[""]`,
query `""`, radius 0.  The brute force keeps `""` (its
`edit_distance_bound` frame junk is 0 here), while the indexed query
drops it (its `edit_distance` frame junk is 5 here): the two sets
differ on the uninitialized-read corner. -/
theorem claim_C3_cex :
    ¬ ([] ∈ brute_force 0 [[]] [] 0 ↔
        [] ∈ BkTree.query 5 (BkTree.build 5 [] []) [] 0) := by
  decide

/-- C3 (amended): for every dictionary `w0 :: ws` of distinct words,
query `q` and radius `n ≥ 0` (for `n < 0` the C++ query iterates the
`std::map` from `lower_bound(d-n)` to `upper_bound(d+n)`, which can
be an inverted — hence undefined — iterator range), provided the
dictionary does not contain the empty word while the query is empty,
the brute-force baseline (keep `w` with
`edit_distance_bound(w, q, n) ≤ n`) emits exactly the same set of
words as the indexed `query`, uniformly in the two junk values. -/
theorem claim_C3 (g gb : Int) (w0 : List Char) (ws : List (List Char))
    (q : List Char) (n : Int) (_hn : 0 ≤ n) (hnd : (w0 :: ws).Nodup)
    (hcorner : ¬([] ∈ (w0 :: ws) ∧ q = [])) :
    ∀ x, x ∈ brute_force gb (w0 :: ws) q n ↔
      x ∈ BkTree.query g (BkTree.build g w0 ws) q n := by
  intro x
  rw [brute_force_mem, BkTree.query_build_iff g w0 ws q n hnd hcorner x]
  constructor
  · rintro ⟨hxD, hbound⟩
    have hx : ¬(x = [] ∧ q = []) := by
      rintro ⟨rfl, rfl⟩
      exact hcorner ⟨hxD, rfl⟩
    exact ⟨hxD, (edit_distance_bound_le_iff g gb x q n hx).mp hbound⟩
  · rintro ⟨hxD, hed⟩
    have hx : ¬(x = [] ∧ q = []) := by
      rintro ⟨rfl, rfl⟩
      exact hcorner ⟨hxD, rfl⟩
    exact ⟨hxD, (edit_distance_bound_le_iff g gb x q n hx).mpr hed⟩

/-- C3 witness. -/
theorem claim_C3_witness :
    ['b'] ∈ brute_force 0 [['b'], ['a', 'b']] ['a'] 1 ↔
      ['b'] ∈ BkTree.query 0 (BkTree.build 0 ['b'] [['a', 'b']]) ['a'] 1 :=
  claim_C3 0 0 ['b'] [['a', 'b']] ['a'] 1 (by decide) (by decide) (by decide) ['b']

/-- C4: evaluation of the code at the failing input.  For
`a = c = ""`, `b = "x"` the value `EditDistance("","")` is the
uninitialized `row[0]` (modelled as 5), and the triangle inequality
`EditDistance(a,c) ≤ EditDistance(a,b) + EditDistance(b,c)` fails;
the code contradicts its own documentation (it claims to compute the
Levenshtein distance, which satisfies `d("","") = 0`).  Away from the
both-empty corner the modelled code does satisfy the triangle
inequality and symmetry (`edit_distance_triangle`,
`edit_distance_comm` above). -/
theorem claim_C4 :
    edit_distance 5 [] [] = 5 ∧
    edit_distance 5 [] ['x'] = 1 ∧
    edit_distance 5 ['x'] [] = 1 ∧
    ¬ (edit_distance 5 [] [] ≤ edit_distance 5 [] ['x'] + edit_distance 5 ['x'] []) := by
  decide

/-- C5, counterexample to the claim as stated: inserting the word
`"a"` into the single-node tree whose pivot is `"a"` (distance
`d = 0`) does NOT leave the tree unchanged: `children.find(0)` fails
and `children[0] = make_unique<BkTree>(word)` creates a new node
holding the duplicate. -/
theorem claim_C5_cex :
    edit_distance 0 ['a'] ['a'] = 0 ∧
      BkTree.pivots (BkTree.insert 0 (.node ['a'] []) ['a']) ≠
        BkTree.pivots (.node ['a'] []) := by
  decide

/-- C5 (amended): on `d = 0` the code takes the other policy the spec
describes as equivalent — it descends as if the duplicate belonged to
the 0-labelled subtree, creating a fresh node when that child is
absent.  `insert` is never a no-op: for EVERY tree and word it adds
exactly one node, holding the inserted word. -/
theorem claim_C5 (g : Int) (t : BkTree) (w : List Char) :
    (BkTree.pivots (BkTree.insert g t w)).Perm (w :: BkTree.pivots t) ∧
    (BkTree.pivots (BkTree.insert g t w)).length = (BkTree.pivots t).length + 1 := by
  have h := BkTree.pivots_insert g w t
  exact ⟨h, by rw [h.length_eq]; rfl⟩

/-- C6, counterexample to the claim as stated: inserting a duplicate
empty word into the single-root tree with empty pivot computes
`edit_distance("","")` — the uninitialized `row[0]`, modelled as 5 —
and stores it as the edge label.  The built tree has parent pivot
`""`, a single child with pivot `""`, and edge label 5, while the
Levenshtein distance between the two pivots is 0: the label does not
equal `EditDistance(p.pivot, c.pivot)`. -/
theorem claim_C6_cex :
    BkTree.pivot (BkTree.build 5 [] [[]]) = [] ∧
    (BkTree.children (BkTree.build 5 [] [[]])).map Prod.fst = [5] ∧
    (BkTree.children (BkTree.build 5 [] [[]])).map (fun kc => BkTree.pivot kc.2)
      = [[]] ∧
    (levd [] [] : Int) ≠ 5 := by
  refine ⟨by decide, by decide, by decide, ?_⟩
  rw [levd_nil_left]
  decide

/-- C6 (amended): every sequence of Insert operations starting from a
single-root tree IN WHICH THE EMPTY WORD OCCURS AT MOST ONCE
preserves the well-formedness invariant: for every non-root node `c`
with parent `p`, the Levenshtein distance between `p.pivot` and
`c.pivot` equals the integer label of the edge from `p` to `c`, and
the edge labels of the children of any single node are pairwise
distinct (in fact strictly increasing, as `std::map` keys).  The
proviso is forced: inserting a duplicate empty word routes through a
pivot `""` and labels the new `"" -> ""` edge with the uninitialized
`row[0]` of `edit_distance` instead of the distance 0.  The result
holds uniformly in the junk value `g`. -/
theorem claim_C6 (g : Int) (w0 : List Char) (ws : List (List Char))
    (hdup : countEmpty (w0 :: ws) ≤ 1) :
    BkTree.WFedges (BkTree.build g w0 ws) := by
  refine BkTree.WFS_to_WFedges g _ (BkTree.build_WFS g w0 ws) ?_
  rw [countEmpty, (BkTree.pivots_build g w0 ws).countP_eq]
  exact hdup

/-- C6 witness: the empty word occurs once in the dictionary. -/
theorem claim_C6_witness : BkTree.WFedges (BkTree.build 7 [] [['a']]) :=
  claim_C6 7 [] [['a']] (by decide)

set_option maxRecDepth 8192 in
/-- C7: evaluation of the code at the failing input.  The NMS sweep
wraps the angle index only from below (`ad < 0 ? ad + 360 : ad`);
window indices `ad ≥ 360` are NOT wrapped.  For a seed above
threshold at `(ri, ai) = (19, 350)` in a grid with `R = 20` radius
bins, the sweep accesses flat index `19*360 + 365 = 7205`, which is
outside the `R*360 = 7200`-element `houghmap` allocation. -/
theorem claim_C7 :
    nmsAii 365 = 365 ∧
    (19 * 360 + 365) ∈ nmsIndices 20 19 350 ∧
    ¬ (19 * 360 + 365 < 20 * 360) := by
  decide

/-- C8, counterexample to the claim as stated: state with both slots
set, slot 0 at angle bin 0 and slot 1 at angle bin 90 (i.e. 45°);
the peak at angle bin 45 (22.5°) with radius 100 is parallel to
NEITHER slot (|45-0| ≥ 20 and |45-90| ≥ 20 bin units, i.e. both
angle differences ≥ 10°), yet the code overwrites `slot1.outer`
because its radius exceeds the stored one: the peak is not
discarded. -/
theorem claim_C8_cex :
    ¬ (|(45 : Int) - 0| < 20) ∧ ¬ (|(45 : Int) - 90| < 20) ∧
    lpStep ⟨(0, 5), (0, 5), (90, 7), (90, 7), true, true⟩ (45, 100) ≠
      ⟨(0, 5), (0, 5), (90, 7), (90, 7), true, true⟩ := by
  decide

/-- C8 (amended): a peak that is not parallel to slot 0, arriving
while slot 1 is set, replaces `slot1.outer` exactly when its radius
exceeds `slot1.outer`'s radius — the code performs NO parallelism
test against slot 1.  Slot 0 and `slot1.inner` are never modified by
such a peak, and a peak with radius not exceeding `slot1.outer`'s is
discarded. -/
theorem claim_C8 (st : LPState) (p : Int × Int) (h0 : st.set0 = true)
    (h1 : st.set1 = true) (hpar : ¬ (|p.1 - st.l0.1| < 20)) :
    ((lpStep st p).l0 = st.l0 ∧ (lpStep st p).l1 = st.l1 ∧
      (lpStep st p).l2 = st.l2) ∧
    (st.l3.2 < p.2 → (lpStep st p).l3 = p) ∧
    (¬ st.l3.2 < p.2 → lpStep st p = st) := by
  rw [lpStep, if_neg (by rw [h0]; simp), if_neg hpar, if_neg (by rw [h1]; simp)]
  by_cases hr : st.l3.2 < p.2
  · rw [if_pos hr]
    exact ⟨⟨rfl, rfl, rfl⟩, fun _ => rfl, fun hc => absurd hr hc⟩
  · rw [if_neg hr]
    exact ⟨⟨rfl, rfl, rfl⟩, fun hc => absurd hc hr, fun _ => rfl⟩

/-- C8 witness. -/
theorem claim_C8_witness :
    ((lpStep ⟨(0, 5), (0, 5), (90, 7), (90, 7), true, true⟩ (45, 100)).l0 = (0, 5) ∧
      (lpStep ⟨(0, 5), (0, 5), (90, 7), (90, 7), true, true⟩ (45, 100)).l1 = (0, 5) ∧
      (lpStep ⟨(0, 5), (0, 5), (90, 7), (90, 7), true, true⟩ (45, 100)).l2 = (90, 7)) ∧
    ((7 : Int) < 100 →
      (lpStep ⟨(0, 5), (0, 5), (90, 7), (90, 7), true, true⟩ (45, 100)).l3 = (45, 100)) ∧
    (¬ (7 : Int) < 100 →
      lpStep ⟨(0, 5), (0, 5), (90, 7), (90, 7), true, true⟩ (45, 100) =
        ⟨(0, 5), (0, 5), (90, 7), (90, 7), true, true⟩) :=
  claim_C8 ⟨(0, 5), (0, 5), (90, 7), (90, 7), true, true⟩ (45, 100)
    (by decide) (by decide) (by decide)

/-- C9, counterexample to the claim as stated: with lines
`L0 = L1 = (θ=0, ρ=5)`, `L2 = (θ≈π/2, ρ=7)`, `L3 = (θ=0, ρ=9)`
(cosine/sine oracle: angle token 0 ↦ (1,0), token 1 ↦ (0,1)), the
first intersection `L0 ∩ L2` succeeds and writes `corners[0] = (5,7)`
before the second one (`L0 ∩ L3`, parallel lines, `d = 0`) fails:
the operation fails as a whole, but the caller's array HAS been
partially filled. -/
theorem claim_C9_cex :
    (find_corners_return (fun a => if a = 0 then 1 else 0)
        (fun a => if a = 0 then 0 else 1)
        (0, 5) (0, 5) (1, 7) (0, 9) ⟨(0, 0), (0, 0), (0, 0), (0, 0)⟩).1 = false ∧
    (find_corners_return (fun a => if a = 0 then 1 else 0)
        (fun a => if a = 0 then 0 else 1)
        (0, 5) (0, 5) (1, 7) (0, 9) ⟨(0, 0), (0, 0), (0, 0), (0, 0)⟩).2 ≠
      ⟨(0, 0), (0, 0), (0, 0), (0, 0)⟩ := by
  have h02 : intersect (fun a : ℚ => if a = 0 then 1 else 0)
      (fun a : ℚ => if a = 0 then 0 else 1) (0, 5) (1, 7) = some (5, 7) := by
    rw [intersect]
    norm_num
  have h03 : intersect (fun a : ℚ => if a = 0 then 1 else 0)
      (fun a : ℚ => if a = 0 then 0 else 1) (0, 5) (0, 9) = none := by
    rw [intersect]
    norm_num
  unfold find_corners_return
  rw [h02, h03]
  refine ⟨rfl, ?_⟩
  intro h
  have h5 : (5 : ℚ) = 0 := congrArg (fun st => st.c0.1) h
  norm_num at h5

/-- C9 (amended): the corner finder succeeds iff all four pairwise
intersections succeed (an intersection of lines with normals `n1, n2`
fails exactly when `|n1x n2y - n2x n1y| < 1e-4`, i.e. `isSome` of the
model's `intersect`), and on failure the intersections BEFORE the
first failing one (in the order `L0∩L2, L0∩L3, L1∩L2, L1∩L3`) have
already written their corners into the caller's array: each output
slot holds the computed corner exactly when all the preceding
intersections succeeded, and the stale input value otherwise.  The
output can therefore be partially filled. -/
theorem claim_C9 (cosO sinO : ℚ → ℚ) (L0 L1 L2 L3 : ℚ × ℚ) (c : Corners4) :
    ((find_corners_return cosO sinO L0 L1 L2 L3 c).1 = true ↔
      ((intersect cosO sinO L0 L2).isSome ∧ (intersect cosO sinO L0 L3).isSome ∧
        (intersect cosO sinO L1 L2).isSome ∧ (intersect cosO sinO L1 L3).isSome)) ∧
    ((find_corners_return cosO sinO L0 L1 L2 L3 c).2.c0 =
      (intersect cosO sinO L0 L2).getD c.c0) ∧
    ((find_corners_return cosO sinO L0 L1 L2 L3 c).2.c1 =
      if (intersect cosO sinO L0 L2).isSome
      then (intersect cosO sinO L0 L3).getD c.c1 else c.c1) ∧
    ((find_corners_return cosO sinO L0 L1 L2 L3 c).2.c2 =
      if (intersect cosO sinO L0 L2).isSome ∧ (intersect cosO sinO L0 L3).isSome
      then (intersect cosO sinO L1 L2).getD c.c2 else c.c2) ∧
    ((find_corners_return cosO sinO L0 L1 L2 L3 c).2.c3 =
      if (intersect cosO sinO L0 L2).isSome ∧ (intersect cosO sinO L0 L3).isSome ∧
          (intersect cosO sinO L1 L2).isSome
      then (intersect cosO sinO L1 L3).getD c.c3 else c.c3) := by
  unfold find_corners_return
  rcases h02 : intersect cosO sinO L0 L2 with _ | p0 <;>
    rcases h03 : intersect cosO sinO L0 L3 with _ | p1 <;>
      rcases h12 : intersect cosO sinO L1 L2 with _ | p2 <;>
        rcases h13 : intersect cosO sinO L1 L3 with _ | p3 <;>
          simp

/-- C10 (confirmed): after hough accumulation on a `W × H` graymap,
for every angle bin `a < 360` the column sum over all `R` radius bins
equals the number of foreground pixels (samples `≠ 255`); hence every
cell is at most the foreground count, which is at most `W*H`, and
when `W*H` fits in the 32-bit unsigned counter no cell overflows.
`b` is the (float-computed) radius binning, assumed in range for
foreground pixels. -/
theorem claim_C10 (W H : Nat) (data : Nat → Nat → Nat) (b : Nat → Nat → Nat → Nat)
    (R a : Nat)
    (hb : ∀ x y a', x < W → y < H → a' < 360 → data y x ≠ 255 → b x y a' < R)
    (ha : a < 360) :
    colSum (houghAccumulate W H data b) R a = foreground_count W H data ∧
    foreground_count W H data ≤ W * H ∧
    (∀ ri, ri < R →
      houghAccumulate W H data b (ri * 360 + a) ≤ foreground_count W H data) ∧
    (W * H < 2 ^ 32 → ∀ ri, ri < R →
      houghAccumulate W H data b (ri * 360 + a) < 2 ^ 32) := by
  have hcol := colSum_hough W H data b R a ha hb
  have hle := foreground_count_le W H data
  have hcell : ∀ ri, ri < R →
      houghAccumulate W H data b (ri * 360 + a) ≤ foreground_count W H data := by
    intro ri hri
    rw [← hcol]
    exact cell_le_colSum _ R a ri hri
  refine ⟨hcol, hle, hcell, ?_⟩
  intro hWH ri hri
  have := hcell ri hri
  omega

/-- C10 witness: a 1×1 all-foreground graymap, `R = 1`, `a = 0`. -/
theorem claim_C10_witness :
    colSum (houghAccumulate 1 1 (fun _ _ => 0) (fun _ _ _ => 0)) 1 0 =
        foreground_count 1 1 (fun _ _ => 0) ∧
    foreground_count 1 1 (fun _ _ => 0) ≤ 1 * 1 ∧
    (∀ ri, ri < 1 →
      houghAccumulate 1 1 (fun _ _ => 0) (fun _ _ _ => 0) (ri * 360 + 0) ≤
        foreground_count 1 1 (fun _ _ => 0)) ∧
    (1 * 1 < 2 ^ 32 → ∀ ri, ri < 1 →
      houghAccumulate 1 1 (fun _ _ => 0) (fun _ _ _ => 0) (ri * 360 + 0) < 2 ^ 32) :=
  claim_C10 1 1 (fun _ _ => 0) (fun _ _ _ => 0) 1 0
    (fun _ _ _ _ _ _ _ => Nat.one_pos) (by decide)
